import Mathlib

/-!
Verification of the `TinyNetworkProxyless` supernetwork
(`lib/models/cell_searchs/search_model_proxyless.py`).

The development shallowly embeds the module: tensor entries are modelled by
an extended value type `RVal` (a rational, `+inf`, `-inf`, or `nan`) so that
the non-finiteness guard in the sampling loop is meaningful; matrices are
lists of rows; the stochastic `torch.multinomial` draw is modelled by an
explicit draw stream (a function giving, per row, a proposed index, reduced
modulo the row width); the unbounded `while` loops are modelled with
explicit fuel, so that termination and non-termination are both statable.
External collaborators (the stem, the searchable cell's forward functions,
the reduction block, parameter counts of submodules and the exponential
used inside softmax) are opaque inputs of the construction, as the spec
treats them.
-/

/-- Extended value: a finite rational, positive infinity, negative infinity
or not-a-number.  This is the value domain of tensor entries; rationals
stand in for exact real arithmetic, while the non-finite constructors model
the IEEE special values that the source's `isinf` / `isnan` guard tests. -/
inductive RVal where
  | fin (q : ℚ)
  | inf
  | neginf
  | nan
deriving DecidableEq, Repr

/-- A tensor of rank 2: a list of rows. -/
abbrev Mat := List (List RVal)

namespace RVal

/-- Finiteness: true exactly on `fin` values (so `isinf ∨ isnan` of the
source is `!isFinite` here). -/
def isFinite : RVal → Bool
  | fin _ => true
  | _ => false

/-- Negation, propagating the special values. -/
def rneg : RVal → RVal
  | fin q => fin (-q)
  | inf => neginf
  | neginf => inf
  | nan => nan

/-- Addition with IEEE-style special-value propagation
(`inf + (-inf) = nan`, `nan` absorbs). -/
def radd : RVal → RVal → RVal
  | fin a, fin b => fin (a + b)
  | fin _, inf => inf
  | inf, fin _ => inf
  | inf, inf => inf
  | fin _, neginf => neginf
  | neginf, fin _ => neginf
  | neginf, neginf => neginf
  | inf, neginf => nan
  | neginf, inf => nan
  | nan, _ => nan
  | _, nan => nan

/-- Subtraction, as addition of the negation (so `inf - inf = nan`). -/
def rsub (a b : RVal) : RVal := radd a (rneg b)

/-- Binary maximum with `nan` propagation (as torch's `max` reduction
propagates `nan`) and the infinities at the two ends. -/
def rmax2 : RVal → RVal → RVal
  | nan, _ => nan
  | _, nan => nan
  | inf, _ => inf
  | _, inf => inf
  | neginf, b => b
  | a, neginf => a
  | fin a, fin b => fin (max a b)

/-- Division with IEEE-style special cases; only finiteness of the result
matters to the development, so the sign of an infinite quotient is not
tracked. -/
def rdiv : RVal → RVal → RVal
  | fin a, fin b => if b = 0 then (if a = 0 then nan else inf) else fin (a / b)
  | fin _, inf => fin 0
  | fin _, neginf => fin 0
  | inf, fin _ => inf
  | neginf, fin _ => neginf
  | inf, inf => nan
  | inf, neginf => nan
  | neginf, inf => nan
  | neginf, neginf => nan
  | nan, _ => nan
  | _, nan => nan

/-- Exponential on extended values, parametric in the finite exponential
`expQ` (an opaque stand-in for the environment's `exp` on finite
arguments): `exp (-inf) = 0`, `exp inf = inf`, `exp nan = nan`. -/
def rexp (expQ : ℚ → ℚ) : RVal → RVal
  | fin q => fin (expQ q)
  | inf => inf
  | neginf => fin 0
  | nan => nan

end RVal

open RVal

/-- Maximum of a row (used by the max-subtraction step of softmax). -/
def rmaxList (xs : List RVal) : RVal :=
  xs.foldl rmax2 (xs.headD RVal.nan)

/-- Sum of a row. -/
def rsumList (xs : List RVal) : RVal :=
  xs.foldl radd (RVal.fin 0)

/-- One row of `torch.nn.functional.softmax` (numerically stable form:
subtract the row maximum, exponentiate, normalise by the sum).  On a row
containing `nan` or `+inf` every output entry is `nan`; a `-inf` entry in an
otherwise finite row yields the finite entry `0`. -/
def softmaxRow (expQ : ℚ → ℚ) (xs : List RVal) : List RVal :=
  let m := rmaxList xs
  let es := xs.map (fun x => rexp expQ (rsub x m))
  let s := rsumList es
  es.map (fun e => rdiv e s)

/-- `nn.functional.softmax(arch_parameters, dim=1)`: row-wise softmax. -/
def softmaxM (expQ : ℚ → ℚ) (m : Mat) : Mat :=
  m.map (softmaxRow expQ)

/-- The source's degeneracy test `torch.isinf(probs).any() or
torch.isnan(probs).any()`: some entry is non-finite. -/
def hasNonFinite (m : Mat) : Bool :=
  m.any (fun row => row.any (fun x => !x.isFinite))

/-- `torch.multinomial(probs, 1)`: one sampled column index per row.  The
randomness is an explicit draw stream `d`; row `r` selects index
`d r % width`, which ranges over exactly the valid columns of a non-empty
row.  The distribution itself is irrelevant to every property proved
here. -/
def multinomialM (probs : Mat) (d : ℕ → ℕ) : List ℕ :=
  (probs.enum).map (fun p => d p.1 % p.2.length)

/-- One one-hot row of width `len` with the `1` at column `c`, as exact
rationals. -/
def oneHotRowQ (len c : ℕ) : List ℚ :=
  (List.range len).map (fun k => if k = c then 1 else 0)

/-- `torch.zeros_like(probs).scatter_(-1, index, 1.0)`: a matrix of the
shape of `probs` whose row `r` is one-hot at `index r`. -/
def oneHotM (probs : Mat) (index : List ℕ) : Mat :=
  List.zipWith (fun row c => (oneHotRowQ row.length c).map RVal.fin) probs index

/-- Elementwise matrix subtraction. -/
def matSub (a b : Mat) : Mat := List.zipWith (List.zipWith rsub) a b

/-- Elementwise matrix addition. -/
def matAdd (a b : Mat) : Mat := List.zipWith (List.zipWith radd) a b

/-- One iteration body of the sampling procedure (shared by `forward` and
`sample_weights`): softmax probabilities, a multinomial draw, the one-hot
matrix of the draw, and the straight-through value
`hardwts = one_h - probs.detach() + probs` (`detach` is the identity on
values).  Returns `(probs, one_h, hardwts, index)`. -/
def sampleDraw (expQ : ℚ → ℚ) (arch : Mat) (d : ℕ → ℕ) :
    Mat × Mat × Mat × List ℕ :=
  let probs := softmaxM expQ arch
  let index := multinomialM probs d
  let one_h := oneHotM probs index
  let hardwts := matAdd (matSub one_h probs) probs
  (probs, one_h, hardwts, index)

/-- The retry loop of `forward` (lines 110-118): draw, and if the
probability matrix has a non-finite entry, discard and loop; otherwise
return `(hardwts, index)`.  The `while True` of the source is modelled with
fuel; `draw` supplies an independent draw stream per remaining fuel. -/
def forwardSampleLoop (expQ : ℚ → ℚ) (arch : Mat) (draw : ℕ → ℕ → ℕ) :
    ℕ → Option (Mat × List ℕ)
  | 0 => none
  | fuel + 1 =>
    let s := sampleDraw expQ arch (draw fuel)
    if hasNonFinite s.1 then forwardSampleLoop expQ arch draw fuel
    else some (s.2.2.1, s.2.2.2)

/-- The inner retry loop of `sample_weights` (lines 81-90): identical guard,
but the accepted value is the pure one-hot draw `one_h`. -/
def sampleWeightsOnce (expQ : ℚ → ℚ) (arch : Mat) (draw : ℕ → ℕ → ℕ) :
    ℕ → Option Mat
  | 0 => none
  | fuel + 1 =>
    let s := sampleDraw expQ arch (draw fuel)
    if hasNonFinite s.1 then sampleWeightsOnce expQ arch draw fuel
    else some s.2.1

/-- Run a fallible step over a list, collecting the results; `none` as soon
as one step fails.  This is the shape of a python `for` loop that appends
to an accumulator and may raise. -/
def mapOpt (f : α → Option β) : List α → Option (List β)
  | [] => some []
  | a :: l =>
    match f a, mapOpt f l with
    | some b, some r => some (b :: r)
    | _, _ => none

/-- `sample_weights(n)` (lines 77-91): `n` independent accepted draws, each
obtained by the inner retry loop; the list of their one-hot matrices. -/
def sample_weights (expQ : ℚ → ℚ) (arch : Mat) (draw : ℕ → ℕ → ℕ → ℕ)
    (fuel n : ℕ) : Option (List Mat) :=
  mapOpt (fun i => sampleWeightsOnce expQ arch (draw i) fuel) (List.range n)

/-- Strictly-greater test on extended values, with the order
`neginf < fin _ < inf < nan` (finite values compared as rationals, `nan`
largest so that it propagates through an argmax as torch's does). -/
def rgtB : RVal → RVal → Bool
  | RVal.fin p, RVal.fin q => decide (q < p)
  | RVal.nan, RVal.nan => false
  | RVal.nan, _ => true
  | _, RVal.nan => false
  | RVal.inf, RVal.inf => false
  | RVal.inf, _ => true
  | _, RVal.inf => false
  | RVal.neginf, _ => false
  | RVal.fin _, RVal.neginf => true

/-- `argmax` over a row: the index of the first entry that is strictly
greater than every later entry and not smaller than any earlier one, i.e.
the first occurrence of the maximum (torch's deterministic behaviour; every
use below carries a unique-maximum hypothesis making ties irrelevant).
`weights.argmax().item()` and the per-row part of
`weights.max(-1, keepdim=True)[1]`. -/
def argmaxRow : List RVal → ℕ
  | [] => 0
  | [_] => 0
  | x :: y :: xs =>
    let j := argmaxRow (y :: xs)
    if rgtB ((y :: xs).getD j RVal.nan) x then j + 1 else 0

/-- `weights.max(-1, keepdim=True)[1]`: the per-row argmax indices. -/
def argmaxRows (w : Mat) : List ℕ := w.map argmaxRow

/-- The Edge Index Map: `edge2index`, a python dict from the key of an edge
(target node, source node — the `"{target}<-{source}"` string) to a row
index, modelled as an association list. -/
abbrev EdgeMap := List ((ℕ × ℕ) × ℕ)

/-- Python dict equality on association lists: the same keys with the same
looked-up values, irrespective of entry order (the `edge2index ==
cell.edge2index` comparison of line 36). -/
def dictEq (a b : EdgeMap) : Bool :=
  a.all (fun kv => b.lookup kv.1 = some kv.2) &&
  b.all (fun kv => a.lookup kv.1 = some kv.2)

/-- `layer_channels` (line 24): `[C]*N + [C*2] + [C*2]*N + [C*4] + [C*4]*N`. -/
def layer_channels (C N : ℕ) : List ℕ :=
  List.replicate N C ++ [C * 2] ++ List.replicate N (C * 2) ++ [C * 4] ++
    List.replicate N (C * 4)

/-- `layer_reductions` (line 25): `[False]*N + [True] + [False]*N + [True] +
[False]*N`. -/
def layer_reductions (N : ℕ) : List Bool :=
  List.replicate N false ++ [true] ++ List.replicate N false ++ [true] ++
    List.replicate N false

/-- `layer_sizes` (line 26): `[s]*N + [s/2] + [s/2]*N + [s/4] + [s/4]*N`
(python true division; sizes are exact rationals here). -/
def layer_sizes (N : ℕ) (s : ℚ) : List ℚ :=
  List.replicate N s ++ [s / 2] ++ List.replicate N (s / 2) ++ [s / 4] ++
    List.replicate N (s / 4)

/-- The Layer Plan: the `zip(layer_channels, layer_reductions, layer_sizes)`
driving the construction loop (line 30), as (output channels, is-reduction,
spatial size) triples. -/
def layerPlan (C N : ℕ) (s : ℚ) : List (ℕ × Bool × ℚ) :=
  List.zip (layer_channels C N) (List.zip (layer_reductions N) (layer_sizes N s))

/-- The Layer Plan as the spec's sentence describes it: "N normal cells, one
reduction, repeated three times at increasing channel width and decreasing
spatial size" — three groups, each of N normal cells followed by one
reduction.  Stated from the spec's words only, for comparison with
`layerPlan`. -/
def layerPlanClaimed (C N : ℕ) (s : ℚ) : List (ℕ × Bool × ℚ) :=
  (List.range 3).flatMap (fun k =>
    List.replicate N (C * 2 ^ k, false, s / 2 ^ k) ++
      [(C * 2 ^ (k + 1), true, s / 2 ^ (k + 1))])

/-- The two forward functions of a Searchable Cell that the supernetwork
calls, as opaque computation units over an abstract feature type `F`
(`NAS201SearchCell.forward_gdas` and `forward_gdas_const`; the cell class
itself is an external collaborator). -/
structure SCellF (F : Type) where
  forward_gdas : F → Mat → List ℕ → F
  forward_gdas_const : F → Mat → List ℕ → F × ℚ

/-- A layer of the stack: a fixed reduction block (`ResNetBasicblock`) with
its opaque forward, or a Searchable Cell with its two forwards.  The
`isinstance(cell, SearchCell)` dispatch of the source becomes a match on
this tag. -/
inductive CellT (F : Type) where
  | red (f : F → F)
  | search (c : SCellF F)

/-- A reference to a trainable parameter object, tagged by the submodule
that owns it.  Distinct constructors model distinct python object
identities: the Architecture Parameter Matrix (`archP`) is a fresh
`nn.Parameter` owned directly by the network, not registered under any
submodule. -/
inductive PRef where
  | stemP (i : ℕ)
  | cellP (layer i : ℕ)
  | lastactP (i : ℕ)
  | poolP (i : ℕ)
  | clsP (i : ℕ)
  | archP
deriving DecidableEq, Repr

/-- The external collaborators consumed by the construction, bundled: the
opaque module forwards, the per-layer cell factories, the edge bookkeeping
each constructed Searchable Cell reports, the submodule parameter counts,
the random initial Architecture Parameter Matrix, and the finite
exponential used by softmax.  Modelled from the spec: the classes
`NAS201SearchCell` and `ResNetBasicblock` and the torch modules of the
stem/head are out-of-scope collaborators, "consumed as opaque, pre-built
computation units". -/
structure Env (F : Type) where
  stem : F → F
  mkRed : ℕ → F → F
  mkSearch : ℕ → SCellF F
  cellInfo : ℕ → ℕ × EdgeMap
  lastact : F → F
  pool : F → F
  classifier : F → F
  nStem : ℕ
  nCell : ℕ → ℕ
  nLastact : ℕ
  nPool : ℕ
  nCls : ℕ
  archInit : Mat
  expQ : ℚ → ℚ

/-- The constructed supernetwork (`TinyNetworkProxyless`): the fields the
claims touch — the stack, the shared edge bookkeeping, the Architecture
Parameter Matrix, the cost-accumulation flag `const`, the opaque module
forwards, the temperature, and the tagged parameter lists of each
submodule. -/
structure TinyNetworkProxyless (F : Type) where
  max_nodes : ℕ
  op_names : List String
  cells : List (CellT F)
  num_edge : ℕ
  edge2index : EdgeMap
  arch_parameters : Mat
  const : Bool
  stem : F → F
  lastact : F → F
  pool : F → F
  classifier : F → F
  expQ : ℚ → ℚ
  tau : ℚ
  stemParams : List PRef
  cellsParams : List PRef
  lastactParams : List PRef
  poolParams : List PRef
  clsParams : List PRef
  archRef : PRef

/-- The construction-time scan over the planned layers (lines 28-37):
reduction layers are skipped; the first Searchable Cell establishes
`(num_edge, edge2index)`; every later Searchable Cell is asserted equal to
it (`assert num_edge == cell.num_edges and edge2index == cell.edge2index`),
a failed assertion aborting construction. -/
def scanCells : Option (ℕ × EdgeMap) → List (Bool × (ℕ × EdgeMap)) →
    Except String (Option (ℕ × EdgeMap))
  | acc, [] => Except.ok acc
  | acc, (red, ci) :: rest =>
    if red then scanCells acc rest
    else
      match acc with
      | none => scanCells (some ci) rest
      | some a =>
        if a.1 = ci.1 && dictEq a.2 ci.2 then scanCells (some a) rest
        else Except.error "invalid num_edge or edge2index"

/-- Tagged parameter list of the cell stack: for each planned layer, the
parameters of the module built there. -/
def cellsParamList (plan : List (ℕ × Bool × ℚ)) (nCell : ℕ → ℕ) : List PRef :=
  plan.enum.flatMap (fun e => (List.range (nCell e.1)).map (PRef.cellP e.1))

/-- `TinyNetworkProxyless.__init__` (lines 15-47): derive the Layer Plan,
build the stack (a reduction block on reduction entries, a Searchable Cell
otherwise), enforce the Edge Index Map invariant across Searchable Cells
(abort on mismatch), then record the head modules, the Architecture
Parameter Matrix, the temperature `tau = 10` and the flag
`const = bool(inp_size)`.  If no Searchable Cell was built, `num_edge`
stays `None` and allocating the parameter matrix fails (line 45), also
modelled as an aborted construction. -/
def construct (env : Env F) (C N max_nodes num_classes : ℕ)
    (search_space : List String) (affine track_running_stats : Bool)
    (inp_size : ℚ) : Except String (TinyNetworkProxyless F) :=
  let plan := layerPlan C N inp_size
  let layers : List (Bool × (ℕ × EdgeMap)) :=
    plan.enum.map (fun e => (e.2.2.1, env.cellInfo e.1))
  match scanCells none layers with
  | Except.error e => Except.error e
  | Except.ok none => Except.error "num_edge is None"
  | Except.ok (some a) =>
    Except.ok
      { max_nodes := max_nodes
        op_names := search_space
        cells := plan.enum.map (fun e =>
          if e.2.2.1 then CellT.red (env.mkRed e.1)
          else CellT.search (env.mkSearch e.1))
        num_edge := a.1
        edge2index := a.2
        arch_parameters := env.archInit
        const := decide (inp_size ≠ 0)
        stem := env.stem
        lastact := env.lastact
        pool := env.pool
        classifier := env.classifier
        expQ := env.expQ
        tau := 10
        stemParams := (List.range env.nStem).map PRef.stemP
        cellsParams := cellsParamList plan env.nCell
        lastactParams := (List.range env.nLastact).map PRef.lastactP
        poolParams := (List.range env.nPool).map PRef.poolP
        clsParams := (List.range env.nCls).map PRef.clsP
        archRef := PRef.archP }

namespace TinyNetworkProxyless

/-- `get_weights` (lines 49-53): the parameters of the stem, the cell
stack, the final normalization+activation, the pooling and the classifier,
concatenated. -/
def get_weights (net : TinyNetworkProxyless F) : List PRef :=
  net.stemParams ++ net.cellsParams ++ net.lastactParams ++ net.poolParams ++
    net.clsParams

/-- `get_alphas` (lines 61-62): the one-element list holding the
Architecture Parameter Matrix object. -/
def get_alphas (net : TinyNetworkProxyless F) : List PRef :=
  [net.archRef]

/-- Decoding of one edge inside `genotype` (lines 97-105): look the edge's
row index up in the Edge Index Map, fetch that row of the live parameters
or of the caller-supplied override, and take the operation name at the
row's argmax; each lookup is fallible (a missing dict key or an
out-of-range index raises in the source). -/
def decodeEdge (net : TinyNetworkProxyless F) (w : Option Mat) (i j : ℕ) :
    Option (String × ℕ) := do
  let r ← net.edge2index.lookup (i, j)
  let row ← (w.getD net.arch_parameters).get? r
  let op ← net.op_names.get? (argmaxRow row)
  pure (op, j)

/-- `genotype` (lines 93-107): for each node `i` of `1 .. max_nodes-1`, the
list of `(operation_name, source)` choices for every source `j < i`. -/
def genotype (net : TinyNetworkProxyless F) (w : Option Mat) :
    Option (List (List (String × ℕ))) :=
  mapOpt (fun i => mapOpt (decodeEdge net w i) (List.range i))
    (List.range' 1 (net.max_nodes - 1))

/-- One layer of the forward stack loop (lines 122-132), acting on the
running `(feature, full_cost)` state: a reduction block applies its plain
forward; a Searchable Cell dispatches on the three mutually exclusive
guards — no external weights and `const` unset: `forward_gdas` with the
sampled selection; no external weights and `const` set:
`forward_gdas_const`, its cost appended; external weights supplied: the
per-edge argmax of the supplied weights is recomputed as the index and
`forward_gdas` runs with the supplied weights. -/
def stepCell (const : Bool) (weights : Option Mat) (hardwts : Mat)
    (index : List ℕ) (st : F × List ℚ) : CellT F → F × List ℚ
  | CellT.red f => (f st.1, st.2)
  | CellT.search c =>
    match weights with
    | none =>
      if const then
        let r := c.forward_gdas_const st.1 hardwts index
        (r.1, st.2 ++ [r.2])
      else (c.forward_gdas st.1 hardwts index, st.2)
    | some w => (c.forward_gdas st.1 w (argmaxRows w), st.2)

/-- `forward` (lines 109-138): when no external weights are supplied, run
the retry sampling loop (fuel-bounded here; `none` models the loop not
having terminated within the fuel); then run the stem, fold the stack with
`stepCell`, apply the head (final normalization+activation, global pooling
with flattening, classifier) and return the pooled features, the logits
and the summed auxiliary cost.  When external weights are supplied the
loop body never runs and the sampled values are never consulted. -/
def forward (net : TinyNetworkProxyless F) (inputs : F) (weights : Option Mat)
    (draw : ℕ → ℕ → ℕ) (fuel : ℕ) : Option (F × F × ℚ) :=
  let sampled : Option (Mat × List ℕ) :=
    match weights with
    | none => forwardSampleLoop net.expQ net.arch_parameters draw fuel
    | some _ => some ([], [])
  match sampled with
  | none => none
  | some s =>
    let st := net.cells.foldl (stepCell net.const weights s.1 s.2)
      (net.stem inputs, ([] : List ℚ))
    let out := net.pool (net.lastact st.1)
    let logits := net.classifier out
    some (out, logits, st.2.sum)

end TinyNetworkProxyless

/-- The zip of the reduction flags and the spatial sizes, in closed form. -/
theorem zip_reductions_sizes (N : ℕ) (s : ℚ) :
    List.zip (layer_reductions N) (layer_sizes N s) =
      List.replicate N (false, s) ++ [(true, s / 2)] ++
        List.replicate N (false, s / 2) ++ [(true, s / 4)] ++
        List.replicate N (false, s / 4) := by
  unfold layer_reductions layer_sizes
  rw [List.zip_append (by simp), List.zip_append (by simp),
    List.zip_append (by simp), List.zip_append (by simp)]
  simp

/-- The Layer Plan in closed form: `N` normal cells at width `C` and size
`s`, a reduction at width `2C` and size `s/2`, `N` normal cells there, a
reduction at width `4C` and size `s/4`, and `N` normal cells there. -/
theorem layerPlan_eq (C N : ℕ) (s : ℚ) :
    layerPlan C N s =
      List.replicate N (C, false, s) ++ [(C * 2, true, s / 2)] ++
        List.replicate N (C * 2, false, s / 2) ++ [(C * 4, true, s / 4)] ++
        List.replicate N (C * 4, false, s / 4) := by
  unfold layerPlan layer_channels
  rw [zip_reductions_sizes]
  rw [List.zip_append (by simp), List.zip_append (by simp),
    List.zip_append (by simp), List.zip_append (by simp)]
  simp

/-- C1 (corrected, counterexample): already at `C = 8`, `N = 1`,
`inp_size = 32` the Layer Plan built by the construction is not three
(N normal + 1 reduction) groups: the third group has no trailing
reduction. -/
theorem C1_counterexample : layerPlan 8 1 32 ≠ layerPlanClaimed 8 1 32 := by
  intro h
  have hlen := congrArg List.length h
  rw [layerPlan_eq] at hlen
  simp [layerPlanClaimed, List.length_flatMap, List.range_succ] at hlen

/-- C1 (amended): the Layer Plan consists of `N` normal cells at width `C`
and size `s`, one reduction to width `2C` and size `s/2`, `N` normal cells
there, one reduction to width `4C` and size `s/4`, and `N` normal cells
there — three groups of `N` normal cells at strictly increasing channel
width and strictly decreasing spatial size, separated by exactly two
reduction layers (not three groups each ending in a reduction). -/
theorem C1_layer_plan (C N : ℕ) (s : ℚ) (hC : 0 < C) (hs : 0 < s) :
    layerPlan C N s =
      List.replicate N (C, false, s) ++ [(C * 2, true, s / 2)] ++
        List.replicate N (C * 2, false, s / 2) ++ [(C * 4, true, s / 4)] ++
        List.replicate N (C * 4, false, s / 4) ∧
    C < C * 2 ∧ C * 2 < C * 4 ∧ s / 2 < s ∧ s / 4 < s / 2 ∧
    ((layerPlan C N s).filter (fun e => e.2.1)).length = 2 := by
  refine ⟨layerPlan_eq C N s, by omega, by omega, by linarith, by linarith, ?_⟩
  rw [layerPlan_eq]
  simp [List.filter_append, List.filter_replicate]

/-- Witness for C1 at a concrete construction. -/
theorem C1_witness :
    ((layerPlan 8 1 32).filter (fun e => e.2.1)).length = 2 :=
  (C1_layer_plan 8 1 32 (by norm_num) (by norm_num)).2.2.2.2.2

/-- If the softmax of the parameters is degenerate, the retry loop of
`forward` makes no progress: the probabilities are recomputed from the
unchanged parameters, the guard fails again, and no fuel suffices. -/
theorem forwardSampleLoop_stuck {expQ : ℚ → ℚ} {arch : Mat}
    (h : hasNonFinite (softmaxM expQ arch) = true) (draw : ℕ → ℕ → ℕ) :
    ∀ fuel, forwardSampleLoop expQ arch draw fuel = none := by
  intro fuel
  induction fuel with
  | zero => rfl
  | succ n ih => simp [forwardSampleLoop, sampleDraw, h, ih]

/-- Same for the inner retry loop of `sample_weights`. -/
theorem sampleWeightsOnce_stuck {expQ : ℚ → ℚ} {arch : Mat}
    (h : hasNonFinite (softmaxM expQ arch) = true) (draw : ℕ → ℕ → ℕ) :
    ∀ fuel, sampleWeightsOnce expQ arch draw fuel = none := by
  intro fuel
  induction fuel with
  | zero => rfl
  | succ n ih => simp [sampleWeightsOnce, sampleDraw, h, ih]

/-- With an all-finite softmax the very first draw is accepted. -/
theorem forwardSampleLoop_succ_of_finite {expQ : ℚ → ℚ} {arch : Mat}
    (h : hasNonFinite (softmaxM expQ arch) = false) (draw : ℕ → ℕ → ℕ)
    (fuel : ℕ) :
    forwardSampleLoop expQ arch draw (fuel + 1) =
      some ((sampleDraw expQ arch (draw fuel)).2.2.1,
        (sampleDraw expQ arch (draw fuel)).2.2.2) := by
  simp [forwardSampleLoop, sampleDraw, h]

/-- With an all-finite softmax the inner loop of `sample_weights` accepts
its first draw. -/
theorem sampleWeightsOnce_succ_of_finite {expQ : ℚ → ℚ} {arch : Mat}
    (h : hasNonFinite (softmaxM expQ arch) = false) (draw : ℕ → ℕ → ℕ)
    (fuel : ℕ) :
    sampleWeightsOnce expQ arch draw (fuel + 1) =
      some (sampleDraw expQ arch (draw fuel)).2.1 := by
  simp [sampleWeightsOnce, sampleDraw, h]

/-- If every step succeeds, `mapOpt` succeeds. -/
theorem mapOpt_isSome {f : α → Option β} :
    ∀ {l : List α}, (∀ a ∈ l, (f a).isSome) → (mapOpt f l).isSome := by
  intro l
  induction l with
  | nil => intro _; rfl
  | cons a l ih =>
    intro h
    have ha := h a (by simp)
    obtain ⟨b, hb⟩ := Option.isSome_iff_exists.mp ha
    have hl := ih (fun x hx => h x (by simp [hx]))
    obtain ⟨r, hr⟩ := Option.isSome_iff_exists.mp hl
    simp [mapOpt, hb, hr]

/-- Every element of a successful `mapOpt` is the image of an element of
the input list. -/
theorem mapOpt_mem {f : α → Option β} :
    ∀ {l : List α} {r : List β}, mapOpt f l = some r →
      ∀ b ∈ r, ∃ a ∈ l, f a = some b := by
  intro l
  induction l with
  | nil =>
    intro r hr b hb
    simp [mapOpt] at hr
    subst hr
    simp at hb
  | cons a l ih =>
    intro r hr b hb
    simp only [mapOpt] at hr
    cases hfa : f a with
    | none => rw [hfa] at hr; simp at hr
    | some v =>
      rw [hfa] at hr
      cases hml : mapOpt f l with
      | none => rw [hml] at hr; simp at hr
      | some vs =>
        rw [hml] at hr
        simp at hr
        subst hr
        rcases List.mem_cons.mp hb with hb' | hb'
        · exact ⟨a, by simp, by simp [hfa, hb']⟩
        · obtain ⟨x, hx, hfx⟩ := ih hml b hb'
          exact ⟨x, by simp [hx], hfx⟩

/-- C2 (corrected, counterexample): for the architecture parameter matrix
`[[nan, 0]]` the retry loop in the sampling procedure never terminates —
the probabilities are recomputed from the unchanged parameters every
iteration, so the degenerate draw is discarded forever. -/
theorem C2_counterexample :
    ¬ ∃ fuel,
      (forwardSampleLoop (fun _ => 1) [[RVal.nan, RVal.fin 0]]
          (fun _ _ => 0) fuel).isSome = true := by
  intro h
  obtain ⟨fuel, hs⟩ := h
  rw [forwardSampleLoop_stuck (by decide) _ fuel] at hs
  simp at hs

/-- C2 (amended): the retry loops in `forward` (without external weights)
and in `sample_weights` terminate exactly when the softmax of the
architecture parameter matrix contains no infinity and no not-a-number; in
that case the very first draw is accepted, and otherwise no amount of fuel
makes them produce a result, since the rejected probabilities are
recomputed unchanged on every iteration. -/
theorem C2_sampling_termination (expQ : ℚ → ℚ) (arch : Mat)
    (draw : ℕ → ℕ → ℕ) (drawW : ℕ → ℕ → ℕ → ℕ) :
    ((∃ fuel, (forwardSampleLoop expQ arch draw fuel).isSome = true) ↔
      hasNonFinite (softmaxM expQ arch) = false) ∧
    (∀ n, n ≠ 0 →
      ((∃ fuel, (sample_weights expQ arch drawW fuel n).isSome = true) ↔
        hasNonFinite (softmaxM expQ arch) = false)) := by
  constructor
  · constructor
    · intro h
      obtain ⟨fuel, hs⟩ := h
      cases hnf : hasNonFinite (softmaxM expQ arch) with
      | false => rfl
      | true => rw [forwardSampleLoop_stuck hnf _ fuel] at hs; simp at hs
    · intro h
      exact ⟨1, by rw [forwardSampleLoop_succ_of_finite h]; rfl⟩
  · intro n hn
    constructor
    · intro h
      obtain ⟨fuel, hs⟩ := h
      cases hnf : hasNonFinite (softmaxM expQ arch) with
      | false => rfl
      | true =>
        obtain ⟨m, rfl⟩ := Nat.exists_eq_succ_of_ne_zero hn
        have hnone : sample_weights expQ arch drawW fuel (m + 1) = none := by
          unfold sample_weights
          rw [List.range_succ_eq_map]
          simp [mapOpt, sampleWeightsOnce_stuck hnf]
        rw [hnone] at hs
        simp at hs
    · intro h
      refine ⟨1, ?_⟩
      exact mapOpt_isSome (fun i _ => by
        rw [sampleWeightsOnce_succ_of_finite h]; rfl)

/-- Witness for C2: a concrete finite parameter matrix on which the loop
accepts its first draw. -/
theorem C2_witness :
    hasNonFinite (softmaxM (fun _ => 1) [[RVal.fin 0, RVal.fin 0]]) = false :=
  (C2_sampling_termination (fun _ => 1) [[RVal.fin 0, RVal.fin 0]]
      (fun _ _ => 0) (fun _ _ _ => 0)).1.mp
    ⟨1, by rw [forwardSampleLoop_succ_of_finite (by with_unfolding_all decide)]; rfl⟩

/-- A row is exactly one-hot: it sums to `1`, contains the entry `1`
exactly once, and every entry is `1` or `0`. -/
def isOneHotRow (xs : List RVal) : Prop :=
  rsumList xs = RVal.fin 1 ∧ xs.count (RVal.fin 1) = 1 ∧
    ∀ x ∈ xs, x = RVal.fin 1 ∨ x = RVal.fin 0

instance (xs : List RVal) : Decidable (isOneHotRow xs) := by
  unfold isOneHotRow; infer_instance

/-- Every row of the matrix is exactly one-hot. -/
def isOneHotM (m : Mat) : Prop := ∀ row ∈ m, isOneHotRow row

instance (m : Mat) : Decidable (isOneHotM m) := by
  unfold isOneHotM; infer_instance

theorem oneHotRowQ_length (len c : ℕ) : (oneHotRowQ len c).length = len := by
  simp [oneHotRowQ]

/-- Folding `radd` over embedded rationals is rational addition. -/
theorem foldl_radd_fin : ∀ (l : List ℚ) (a : ℚ),
    (l.map RVal.fin).foldl radd (RVal.fin a) = RVal.fin (a + l.sum) := by
  intro l
  induction l with
  | nil => intro a; simp [radd]
  | cons x l ih =>
    intro a
    simp only [List.map_cons, List.foldl_cons, List.sum_cons, radd, ih]
    ring_nf

theorem oneHotRowQ_sum_of_ge : ∀ {len c : ℕ}, len ≤ c →
    (oneHotRowQ len c).sum = 0 := by
  intro len
  induction len with
  | zero => intro c _; rfl
  | succ n ih =>
    intro c hc
    unfold oneHotRowQ
    rw [List.range_succ]
    simp only [List.map_append, List.sum_append]
    have h1 : ((List.range n).map fun k => if k = c then (1 : ℚ) else 0).sum = 0 :=
      ih (by omega)
    have h2 : n ≠ c := by omega
    simp [oneHotRowQ] at h1
    simp [h1, h2]

theorem oneHotRowQ_sum_of_lt : ∀ {len c : ℕ}, c < len →
    (oneHotRowQ len c).sum = 1 := by
  intro len
  induction len with
  | zero => intro c hc; omega
  | succ n ih =>
    intro c hc
    unfold oneHotRowQ
    rw [List.range_succ]
    simp only [List.map_append, List.sum_append]
    rcases Nat.lt_or_ge c n with h | h
    · have h1 := ih h
      have h2 : n ≠ c := by omega
      simp [oneHotRowQ] at h1
      simp [h1, h2]
    · have hcn : c = n := by omega
      subst hcn
      have h1 := oneHotRowQ_sum_of_ge (Nat.le_refl c)
      simp [oneHotRowQ] at h1
      simp [h1]

theorem oneHotRowQ_count_of_ge : ∀ {len c : ℕ}, len ≤ c →
    (oneHotRowQ len c).count 1 = 0 := by
  intro len
  induction len with
  | zero => intro c _; rfl
  | succ n ih =>
    intro c hc
    unfold oneHotRowQ
    rw [List.range_succ]
    simp only [List.map_append, List.count_append]
    have h1 : ((List.range n).map fun k => if k = c then (1 : ℚ) else 0).count 1 = 0 := by
      have h0 : List.count 1 (oneHotRowQ n c) = 0 := ih (by omega)
      simpa [oneHotRowQ] using h0
    have h2 : n ≠ c := by omega
    simp [h1, h2, List.count_singleton]

theorem oneHotRowQ_count_of_lt : ∀ {len c : ℕ}, c < len →
    (oneHotRowQ len c).count 1 = 1 := by
  intro len
  induction len with
  | zero => intro c hc; omega
  | succ n ih =>
    intro c hc
    unfold oneHotRowQ
    rw [List.range_succ]
    simp only [List.map_append, List.count_append]
    rcases Nat.lt_or_ge c n with h | h
    · have h1 := ih h
      have h2 : n ≠ c := by omega
      simp [oneHotRowQ] at h1
      simp [h1, h2, List.count_singleton]
    · have hcn : c = n := by omega
      subst hcn
      have h1 := oneHotRowQ_count_of_ge (Nat.le_refl c)
      simp [oneHotRowQ] at h1
      simp [h1, List.count_singleton]

theorem oneHotRowQ_mem {len c : ℕ} {q : ℚ} (h : q ∈ oneHotRowQ len c) :
    q = 1 ∨ q = 0 := by
  simp only [oneHotRowQ, List.mem_map, List.mem_range] at h
  obtain ⟨k, _, hk⟩ := h
  by_cases hkc : k = c
  · left; rw [if_pos hkc] at hk; exact hk.symm
  · right; rw [if_neg hkc] at hk; exact hk.symm

theorem isOneHotRow_oneHot {len c : ℕ} (hc : c < len) :
    isOneHotRow ((oneHotRowQ len c).map RVal.fin) := by
  refine ⟨?_, ?_, ?_⟩
  · unfold rsumList
    rw [foldl_radd_fin, oneHotRowQ_sum_of_lt hc]
    norm_num
  · have hinj : Function.Injective RVal.fin := fun a b h => by injection h
    have hcnt := List.count_map_of_injective (oneHotRowQ len c) RVal.fin hinj 1
    rw [hcnt]
    exact oneHotRowQ_count_of_lt hc
  · intro x hx
    simp only [List.mem_map] at hx
    obtain ⟨q, hq, rfl⟩ := hx
    rcases oneHotRowQ_mem hq with h | h
    · left; rw [h]
    · right; rw [h]

/-- The straight-through value equals the one-hot draw, rowwise, whenever
the probabilities are finite: `(one_h - p) + p = one_h` in exact
arithmetic. -/
theorem ste_row : ∀ (o p : List RVal), o.length = p.length →
    (∀ x ∈ o, ∃ q, x = RVal.fin q) → (∀ x ∈ p, x.isFinite = true) →
    List.zipWith radd (List.zipWith rsub o p) p = o := by
  intro o
  induction o with
  | nil => intro p _ _ _; simp
  | cons a o ih =>
    intro p hl ho hp
    cases p with
    | nil => simp at hl
    | cons b p =>
      obtain ⟨q, rfl⟩ := ho a (by simp)
      have hb : b.isFinite = true := hp b (by simp)
      cases b with
      | fin r =>
        simp only [List.zipWith_cons_cons]
        rw [ih p (by simpa using hl) (fun x hx => ho x (by simp [hx]))
          (fun x hx => hp x (by simp [hx]))]
        have : radd (rsub (RVal.fin q) (RVal.fin r)) (RVal.fin r) = RVal.fin q := by
          simp [rsub, rneg, radd]
        rw [this]
      | inf => simp [RVal.isFinite] at hb
      | neginf => simp [RVal.isFinite] at hb
      | nan => simp [RVal.isFinite] at hb

/-- Matrix form of the straight-through cancellation. -/
theorem ste_mat : ∀ (P : Mat) (idx : List ℕ),
    (∀ row ∈ P, ∀ x ∈ row, x.isFinite = true) →
    matAdd (matSub (oneHotM P idx) P) P = oneHotM P idx := by
  intro P
  induction P with
  | nil => intro idx _; rfl
  | cons p P ih =>
    intro idx hf
    cases idx with
    | nil => rfl
    | cons c idx =>
      have hrow : ∀ x ∈ (oneHotRowQ p.length c).map RVal.fin,
          ∃ q, x = RVal.fin q := by
        intro x hx
        simp only [List.mem_map] at hx
        obtain ⟨q, _, rfl⟩ := hx
        exact ⟨q, rfl⟩
      simp only [oneHotM, matSub, matAdd, List.zipWith_cons_cons]
      rw [ste_row _ p (by simp [oneHotRowQ_length]) hrow (hf p (by simp))]
      have htail := ih idx (fun r hr x hx => hf r (by simp [hr]) x hx)
      simp only [oneHotM, matSub, matAdd] at htail
      rw [htail]

theorem multinomialM_length (P : Mat) (d : ℕ → ℕ) :
    (multinomialM P d).length = P.length := by
  simp [multinomialM]

theorem oneHotM_mem {P : Mat} {idx : List ℕ} {row : List RVal}
    (h : row ∈ oneHotM P idx) :
    ∃ k, ∃ hk : k < P.length, ∃ hk' : k < idx.length,
      row = (oneHotRowQ ((P[k]).length) (idx[k])).map RVal.fin := by
  unfold oneHotM at h
  rw [List.mem_iff_getElem] at h
  obtain ⟨i, hi, hrow⟩ := h
  rw [List.getElem_zipWith] at hrow
  have hlen := hi
  rw [List.length_zipWith] at hlen
  exact ⟨i, by omega, by omega, hrow.symm⟩

theorem multinomialM_getElem {P : Mat} {d : ℕ → ℕ} {k : ℕ}
    (hk : k < (multinomialM P d).length) (hk2 : k < P.length) :
    (multinomialM P d)[k] = d k % ((P[k]).length) := by
  simp [multinomialM]

/-- The scattered one-hot matrix of a multinomial draw is rowwise one-hot
as soon as every probability row is non-empty. -/
theorem isOneHotM_oneHotM {P : Mat} {d : ℕ → ℕ}
    (hrows : ∀ row ∈ P, row ≠ []) :
    isOneHotM (oneHotM P (multinomialM P d)) := by
  intro row hrow
  obtain ⟨k, hk, hk', hseq⟩ := oneHotM_mem hrow
  rw [hseq]
  have hne : (P[k]) ≠ [] := hrows _ (List.getElem_mem hk)
  have hlen : 0 < (P[k]).length := List.length_pos.mpr hne
  rw [multinomialM_getElem hk' hk]
  exact isOneHotRow_oneHot (Nat.mod_lt _ hlen)

/-- A matrix that passes the non-finiteness guard is entrywise finite. -/
theorem hasNonFinite_eq_false {M : Mat} (h : hasNonFinite M = false) :
    ∀ row ∈ M, ∀ x ∈ row, x.isFinite = true := by
  intro row hr x hx
  unfold hasNonFinite at h
  rw [List.any_eq_false] at h
  have hrow := h row hr
  rw [Bool.not_eq_true, List.any_eq_false] at hrow
  have hb := hrow x hx
  rw [Bool.not_eq_true] at hb
  simpa using hb

/-- A successful run of the `forward` retry loop passed the guard and
returned the straight-through value and index of some draw. -/
theorem forwardSampleLoop_some {expQ : ℚ → ℚ} {arch : Mat}
    {draw : ℕ → ℕ → ℕ} :
    ∀ {fuel : ℕ} {hw : Mat} {idx : List ℕ},
      forwardSampleLoop expQ arch draw fuel = some (hw, idx) →
      hasNonFinite (softmaxM expQ arch) = false ∧
        ∃ d, hw = (sampleDraw expQ arch d).2.2.1 ∧
          idx = (sampleDraw expQ arch d).2.2.2 := by
  intro fuel
  induction fuel with
  | zero => intro hw idx h; simp [forwardSampleLoop] at h
  | succ n ih =>
    intro hw idx h
    cases hnf : hasNonFinite (softmaxM expQ arch) with
    | true =>
      rw [forwardSampleLoop_stuck hnf _ (n + 1)] at h
      simp at h
    | false =>
      rw [forwardSampleLoop_succ_of_finite hnf] at h
      have h2 := Option.some.inj h
      exact ⟨rfl, draw n, (congrArg Prod.fst h2).symm, (congrArg Prod.snd h2).symm⟩

/-- A successful run of the `sample_weights` inner loop passed the guard
and returned the one-hot matrix of some draw. -/
theorem sampleWeightsOnce_some {expQ : ℚ → ℚ} {arch : Mat}
    {draw : ℕ → ℕ → ℕ} :
    ∀ {fuel : ℕ} {w : Mat},
      sampleWeightsOnce expQ arch draw fuel = some w →
      hasNonFinite (softmaxM expQ arch) = false ∧
        ∃ d, w = (sampleDraw expQ arch d).2.1 := by
  intro fuel
  induction fuel with
  | zero => intro w h; simp [sampleWeightsOnce] at h
  | succ n ih =>
    intro w h
    cases hnf : hasNonFinite (softmaxM expQ arch) with
    | true =>
      rw [sampleWeightsOnce_stuck hnf _ (n + 1)] at h
      simp at h
    | false =>
      rw [sampleWeightsOnce_succ_of_finite hnf] at h
      exact ⟨rfl, draw n, (Option.some.inj h).symm⟩

/-- C3 (confirmed): when the candidate-operation set is non-empty (every
parameter row non-empty), every Selection Weights matrix produced by an
accepted sampling step — the `hardwts` straight-through value accepted in
`forward` as well as every matrix returned by `sample_weights` — has rows
that sum exactly to `1` and contain exactly one entry equal to `1`, all
others `0`. -/
theorem C3_one_hot (expQ : ℚ → ℚ) (arch : Mat)
    (hrows : ∀ row ∈ arch, row ≠ []) :
    (∀ (draw : ℕ → ℕ → ℕ) (fuel : ℕ) (hw : Mat) (idx : List ℕ),
      forwardSampleLoop expQ arch draw fuel = some (hw, idx) → isOneHotM hw) ∧
    (∀ (draw : ℕ → ℕ → ℕ → ℕ) (fuel n : ℕ) (ws : List Mat),
      sample_weights expQ arch draw fuel n = some ws →
        ∀ w ∈ ws, isOneHotM w) := by
  have hprows : ∀ row ∈ softmaxM expQ arch, row ≠ [] := by
    intro row hr
    simp only [softmaxM, List.mem_map] at hr
    obtain ⟨r, hrm, rfl⟩ := hr
    have hlen : (softmaxRow expQ r).length = r.length := by simp [softmaxRow]
    intro hnil
    rw [hnil] at hlen
    exact hrows r hrm (List.eq_nil_of_length_eq_zero hlen.symm)
  constructor
  · intro draw fuel hw idx h
    obtain ⟨hnf, d, hhw, _⟩ := forwardSampleLoop_some h
    rw [hhw]
    have hfin := hasNonFinite_eq_false hnf
    show isOneHotM (sampleDraw expQ arch d).2.2.1
    have heq : (sampleDraw expQ arch d).2.2.1 =
        oneHotM (softmaxM expQ arch) (multinomialM (softmaxM expQ arch) d) := by
      show matAdd (matSub (oneHotM _ _) _) _ = _
      exact ste_mat _ _ hfin
    rw [heq]
    exact isOneHotM_oneHotM hprows
  · intro draw fuel n ws h w hw
    obtain ⟨i, _, hsw⟩ := mapOpt_mem h w hw
    obtain ⟨hnf, d, rfl⟩ := sampleWeightsOnce_some hsw
    show isOneHotM (sampleDraw expQ arch d).2.1
    exact isOneHotM_oneHotM hprows

/-- Witness for C3: a concrete accepted draw. -/
theorem C3_witness : isOneHotM [[RVal.fin 1, RVal.fin 0]] :=
  (C3_one_hot (fun _ => 1) [[RVal.fin 0, RVal.fin 0]] (by simp)).1
    (fun _ _ => 0) 1 [[RVal.fin 1, RVal.fin 0]] [0]
    (by with_unfolding_all decide)

theorem rgtB_asymm : ∀ {a b : RVal}, rgtB a b = true → rgtB b a = false := by
  intro a b h
  cases a <;> cases b <;> simp_all [rgtB] <;> linarith

theorem getD_of_lt (l : List α) (n : ℕ) (d : α) (h : n < l.length) :
    l.getD n d = l[n] := by
  simp [List.getD_eq_getElem?_getD, List.getElem?_eq_getElem h]

theorem argmaxRow_lt : ∀ (xs : List RVal), xs ≠ [] → argmaxRow xs < xs.length
  | [_], _ => by simp [argmaxRow]
  | x :: y :: xs, _ => by
    have ih := argmaxRow_lt (y :: xs) (by simp)
    simp only [argmaxRow]
    split
    · simpa using Nat.succ_lt_succ ih
    · simp

/-- `argmax` returns the column of a unique strict maximum. -/
theorem argmaxRow_unique : ∀ (xs : List RVal) (c : ℕ) (hc : c < xs.length),
    (∀ k (hk : k < xs.length), k ≠ c → rgtB (xs[c]) (xs[k]) = true) →
    argmaxRow xs = c
  | [], c, hc, _ => by simp at hc
  | [_], c, hc, _ => by
    simp at hc
    simp [argmaxRow, hc]
  | x :: y :: xs, c, hc, huniq => by
    have hlt := argmaxRow_lt (y :: xs) (by simp)
    cases c with
    | zero =>
      have hbeat := huniq (argmaxRow (y :: xs) + 1)
        (by simpa using Nat.succ_lt_succ hlt) (by omega)
      simp only [List.getElem_cons_zero, List.getElem_cons_succ] at hbeat
      simp only [argmaxRow, getD_of_lt _ _ _ hlt]
      rw [rgtB_asymm hbeat]
      simp
    | succ c' =>
      have hc' : c' < (y :: xs).length := by simpa using hc
      have ihres : argmaxRow (y :: xs) = c' := by
        apply argmaxRow_unique (y :: xs) c' hc'
        intro k hk hkc
        have h2 := huniq (k + 1) (by simpa using Nat.succ_lt_succ hk) (by omega)
        simpa using h2
      have hhead := huniq 0 (by simp) (by omega)
      simp only [List.getElem_cons_succ, List.getElem_cons_zero] at hhead
      simp only [argmaxRow, getD_of_lt _ _ _ hlt]
      simp only [ihres] at *
      rw [hhead]
      simp

/-- Pointwise content of a successful `mapOpt`. -/
theorem mapOpt_get {f : α → Option β} :
    ∀ {l : List α} {r : List β}, mapOpt f l = some r →
      r.length = l.length ∧
      ∀ k (hk : k < l.length) (hk' : k < r.length),
        f (l[k]) = some (r[k]) := by
  intro l
  induction l with
  | nil =>
    intro r h
    simp [mapOpt] at h
    subst h
    exact ⟨rfl, fun k hk _ => absurd hk (by simp)⟩
  | cons a l ih =>
    intro r h
    simp only [mapOpt] at h
    cases hfa : f a with
    | none => rw [hfa] at h; simp at h
    | some b =>
      rw [hfa] at h
      cases hml : mapOpt f l with
      | none => rw [hml] at h; simp at h
      | some rs =>
        rw [hml] at h
        simp at h
        subst h
        obtain ⟨hlen, hget⟩ := ih hml
        refine ⟨by simp [hlen], ?_⟩
        intro k hk hk'
        cases k with
        | zero => simpa using hfa
        | succ n =>
          simpa using hget n (by simpa using hk) (by simpa using hk')

/-- A decoded edge always carries its source node as second component. -/
theorem decodeEdge_snd {F : Type} (net : TinyNetworkProxyless F)
    (w : Option Mat) (i j : ℕ) (p : String × ℕ)
    (h : net.decodeEdge w i j = some p) : p.2 = j := by
  unfold TinyNetworkProxyless.decodeEdge at h
  simp only [Option.bind_eq_bind, Option.bind_eq_some, Option.pure_def,
    Option.some.injEq] at h
  obtain ⟨r, _, row, _, op, _, hp⟩ := h
  rw [← hp]

/-- C5 (confirmed): for `max_nodes ≥ 2`, a successful genotype decoding has
exactly `max_nodes - 1` node entries, and the `k`-th entry (0-indexed from
node 1) holds exactly `k+1` (operation, source) pairs whose sources are
`0, 1, ..., k` in order. -/
theorem C5_genotype_shape {F : Type} (net : TinyNetworkProxyless F)
    (w : Option Mat) (hmn : 2 ≤ net.max_nodes)
    (g : List (List (String × ℕ))) (h : net.genotype w = some g) :
    g.length = net.max_nodes - 1 ∧
    ∀ k (hk : k < g.length),
      (g[k]).length = k + 1 ∧
      ∀ m (hm : m < (g[k]).length), ((g[k])[m]).2 = m := by
  unfold TinyNetworkProxyless.genotype at h
  obtain ⟨hlen, hget⟩ := mapOpt_get h
  have hrl : (List.range' 1 (net.max_nodes - 1)).length = net.max_nodes - 1 := by
    simp
  refine ⟨by rw [hlen, hrl], ?_⟩
  intro k hk
  have hk2 : k < (List.range' 1 (net.max_nodes - 1)).length := by
    rw [hrl]
    rw [hlen, hrl] at hk
    exact hk
  have hstep := hget k hk2 hk
  rw [List.getElem_range'] at hstep
  simp only [Nat.one_mul] at hstep
  obtain ⟨hilen, higet⟩ := mapOpt_get hstep
  constructor
  · rw [hilen]; simp [Nat.add_comm]
  · intro m hm
    have hm2 : m < (List.range (1 + k)).length := by
      rw [hilen] at hm
      exact hm
    have hd := higet m hm2 hm
    rw [List.getElem_range] at hd
    exact decodeEdge_snd net w (1 + k) m _ hd

/-- Direct computation of one decoded edge from its ingredients. -/
theorem decodeEdge_eq {F : Type} (net : TinyNetworkProxyless F)
    (w : Option Mat) (i j r c : ℕ) (row : List RVal) (op : String)
    (hlook : net.edge2index.lookup (i, j) = some r)
    (hrowm : (w.getD net.arch_parameters).get? r = some row)
    (hargm : argmaxRow row = c)
    (hop : net.op_names.get? c = some op) :
    net.decodeEdge w i j = some (op, j) := by
  have hrowm2 : (w.getD net.arch_parameters)[r]? = some row := by
    rw [← List.get?_eq_getElem?]
    exact hrowm
  have hop2 : net.op_names[c]? = some op := by
    rw [← List.get?_eq_getElem?]
    exact hop
  simp [TinyNetworkProxyless.decodeEdge, hlook, hrowm2, hargm, hop2]

/-- C4 (confirmed): for any weight matrix (live parameters when no
override, else the override), if the row `r` that the Edge Index Map
assigns to edge `(i, j)` has its unique maximum at column `c`, a successful
decoding places the operation name at index `c`, paired with source `j`, at
position `j` of node `i`'s entry — independently for every row. -/
theorem C4_genotype_argmax {F : Type} (net : TinyNetworkProxyless F)
    (w : Option Mat) (i j r c : ℕ) (row : List RVal) (op : String)
    (hi1 : 1 ≤ i) (hi2 : i < net.max_nodes) (hj : j < i)
    (hlook : net.edge2index.lookup (i, j) = some r)
    (hrowm : (w.getD net.arch_parameters).get? r = some row)
    (hc : c < row.length)
    (huniq : ∀ k (hk : k < row.length), k ≠ c →
      rgtB (row[c]) (row[k]) = true)
    (hop : net.op_names.get? c = some op)
    (g : List (List (String × ℕ))) (hg : net.genotype w = some g) :
    ∃ hk : i - 1 < g.length, ∃ hm : j < ((g[i-1]).length),
      (g[i-1])[j] = (op, j) := by
  unfold TinyNetworkProxyless.genotype at hg
  obtain ⟨hlen, hget⟩ := mapOpt_get hg
  have hk : i - 1 < g.length := by rw [hlen]; simp; omega
  have hk2 : i - 1 < (List.range' 1 (net.max_nodes - 1)).length := by
    simp; omega
  have hstep := hget (i - 1) hk2 hk
  rw [List.getElem_range'] at hstep
  have h1i : 1 + 1 * (i - 1) = i := by omega
  rw [h1i] at hstep
  obtain ⟨hilen, higet⟩ := mapOpt_get hstep
  have hm : j < (g[i - 1]).length := by
    rw [hilen]
    simpa using hj
  have hm2 : j < (List.range i).length := by simpa using hj
  have hd := higet j hm2 hm
  rw [List.getElem_range] at hd
  refine ⟨hk, hm, ?_⟩
  have hcomp := decodeEdge_eq net w i j r c row op hlook hrowm
    (argmaxRow_unique row c hc huniq) hop
  rw [hcomp] at hd
  exact (Option.some.inj hd).symm

/-- A small concrete supernetwork (`max_nodes = 3`, three candidate
operations) used to exercise the genotype theorems on explicit data. -/
def net0 : TinyNetworkProxyless Unit :=
  { max_nodes := 3
    op_names := ["none", "skip_connect", "nor_conv_3x3"]
    cells := []
    num_edge := 3
    edge2index := [((1, 0), 0), ((2, 0), 1), ((2, 1), 2)]
    arch_parameters := [[RVal.fin 0, RVal.fin 1, RVal.fin 0],
                        [RVal.fin 2, RVal.fin 0, RVal.fin 0],
                        [RVal.fin 0, RVal.fin 0, RVal.fin 3]]
    const := false
    stem := id
    lastact := id
    pool := id
    classifier := id
    expQ := fun _ => 1
    tau := 10
    stemParams := []
    cellsParams := []
    lastactParams := []
    poolParams := []
    clsParams := []
    archRef := PRef.archP }

/-- Witness for C4: decoding `net0` places `"none"` (the argmax of row 1)
at position 0 of node 2's entry. -/
theorem C4_witness :
    ∃ hk : (1 : ℕ) <
        ([[("skip_connect", 0)], [("none", 0), ("nor_conv_3x3", 1)]] :
          List (List (String × ℕ))).length,
      ∃ hm : (0 : ℕ) <
        (([[("skip_connect", 0)], [("none", 0), ("nor_conv_3x3", 1)]] :
          List (List (String × ℕ)))[1]).length,
        (([[("skip_connect", 0)], [("none", 0), ("nor_conv_3x3", 1)]] :
          List (List (String × ℕ)))[1])[0] = ("none", 0) := by
  have h := C4_genotype_argmax net0 none 2 0 1 0
    [RVal.fin 2, RVal.fin 0, RVal.fin 0] "none"
    (by omega) (by with_unfolding_all decide) (by omega)
    (by with_unfolding_all decide) (by with_unfolding_all decide)
    (by with_unfolding_all decide)
    (by
      intro k hk hkc
      have hk3 : k < 3 := by simpa using hk
      match k, hkc, hk3 with
      | 1, _, _ =>
        show rgtB (RVal.fin 2) (RVal.fin 0) = true
        with_unfolding_all decide
      | 2, _, _ =>
        show rgtB (RVal.fin 2) (RVal.fin 0) = true
        with_unfolding_all decide)
    (by with_unfolding_all decide)
    [[("skip_connect", 0)], [("none", 0), ("nor_conv_3x3", 1)]]
    (by with_unfolding_all decide)
  exact h

/-- Witness for C5: the decoded genotype of `net0` has
`max_nodes - 1 = 2` entries. -/
theorem C5_witness :
    ([[("skip_connect", 0)], [("none", 0), ("nor_conv_3x3", 1)]] :
      List (List (String × ℕ))).length = net0.max_nodes - 1 :=
  (C5_genotype_shape net0 none (by with_unfolding_all decide)
    [[("skip_connect", 0)], [("none", 0), ("nor_conv_3x3", 1)]]
    (by with_unfolding_all decide)).1

/-- C6 (confirmed): with an externally supplied selection-weight matrix,
`forward` is a pure function of the network and the input — the sampling
loop body never runs, no randomness (modelled by the draw stream and the
fuel) influences the result, and repeated calls give identical pooled
features, logits and cost. -/
theorem C6_forward_deterministic {F : Type} (net : TinyNetworkProxyless F)
    (inputs : F) (w : Mat) (d1 d2 : ℕ → ℕ → ℕ) (fuel1 fuel2 : ℕ) :
    net.forward inputs (some w) d1 fuel1 = net.forward inputs (some w) d2 fuel2 :=
  rfl

/-- With external weights the stack fold never touches the cost
accumulator. -/
theorem foldl_stepCell_cost {F : Type} (const : Bool) (w : Mat) (hw : Mat)
    (idx : List ℕ) :
    ∀ (cells : List (CellT F)) (f : F) (cs : List ℚ),
      (cells.foldl (TinyNetworkProxyless.stepCell const (some w) hw idx) (f, cs)).2 = cs := by
  intro cells
  induction cells with
  | nil => intro f cs; rfl
  | cons cell cells ih =>
    intro f cs
    cases cell with
    | red g => exact ih (g f) cs
    | search c => exact ih (c.forward_gdas f w (argmaxRows w)) cs

/-- C10 (confirmed): whenever external selection weights are supplied, the
auxiliary cost returned by `forward` is exactly `0`, whatever the
cost-accumulation flag is: the cost-accumulating branch is unreachable on
that path. -/
theorem C10_zero_cost_external {F : Type} (net : TinyNetworkProxyless F)
    (inputs : F) (w : Mat) (draw : ℕ → ℕ → ℕ) (fuel : ℕ) :
    (net.forward inputs (some w) draw fuel).map (fun r => r.2.2) = some 0 := by
  have hc := foldl_stepCell_cost net.const w ([] : Mat) ([] : List ℕ)
    net.cells (net.stem inputs) []
  simp [TinyNetworkProxyless.forward, hc]

/-- Field content of a successfully constructed network. -/
theorem construct_ok_eq {F : Type} {env : Env F} {C N mn nc : ℕ}
    {ss : List String} {a t : Bool} {s : ℚ} {net : TinyNetworkProxyless F}
    (h : construct env C N mn nc ss a t s = Except.ok net) :
    ∃ ne, scanCells none ((layerPlan C N s).enum.map
        (fun e => (e.2.2.1, env.cellInfo e.1))) = Except.ok (some ne) ∧
      net.const = decide (s ≠ 0) ∧
      net.archRef = PRef.archP ∧
      net.stemParams = (List.range env.nStem).map PRef.stemP ∧
      net.cellsParams = cellsParamList (layerPlan C N s) env.nCell ∧
      net.lastactParams = (List.range env.nLastact).map PRef.lastactP ∧
      net.poolParams = (List.range env.nPool).map PRef.poolP ∧
      net.clsParams = (List.range env.nCls).map PRef.clsP ∧
      net.num_edge = ne.1 ∧ net.edge2index = ne.2 := by
  simp only [construct] at h
  cases hscan : scanCells none ((layerPlan C N s).enum.map
      (fun e => (e.2.2.1, env.cellInfo e.1))) with
  | error e => rw [hscan] at h; simp at h
  | ok oa =>
    rw [hscan] at h
    cases oa with
    | none => simp at h
    | some a2 =>
      simp only at h
      injection h with h2
      subst h2
      exact ⟨a2, rfl, rfl, rfl, rfl, rfl, rfl, rfl, rfl, rfl, rfl⟩

/-- C7 (confirmed): the cost-accumulation flag set at construction is the
truthiness of `input_spatial_size`, and a Searchable Cell's forward step
takes exactly one of three mutually exclusive branches: plain GDAS forward
(no external weights, flag unset), cost-accumulating GDAS forward (no
external weights, flag set), and the external-weights forward with the
index recomputed as the per-edge argmax of the supplied weights. -/
theorem C7_const_flag_and_branches {F : Type} (env : Env F)
    (C N mn nc : ℕ) (ss : List String) (a t : Bool) (s : ℚ)
    (net : TinyNetworkProxyless F)
    (h : construct env C N mn nc ss a t s = Except.ok net) :
    (net.const = true ↔ s ≠ 0) ∧
    (∀ (w : Option Mat) (b : Bool),
      ((w = none ∧ b = false) ∧ ¬(w = none ∧ b = true) ∧ ¬w ≠ none) ∨
      (¬(w = none ∧ b = false) ∧ (w = none ∧ b = true) ∧ ¬w ≠ none) ∨
      (¬(w = none ∧ b = false) ∧ ¬(w = none ∧ b = true) ∧ w ≠ none)) ∧
    (∀ (c : SCellF F) (hw : Mat) (idx : List ℕ) (f : F) (cs : List ℚ),
      TinyNetworkProxyless.stepCell false none hw idx (f, cs) (CellT.search c) =
        (c.forward_gdas f hw idx, cs) ∧
      TinyNetworkProxyless.stepCell true none hw idx (f, cs) (CellT.search c) =
        ((c.forward_gdas_const f hw idx).1,
          cs ++ [(c.forward_gdas_const f hw idx).2]) ∧
      ∀ (wm : Mat) (b : Bool),
        TinyNetworkProxyless.stepCell b (some wm) hw idx (f, cs) (CellT.search c) =
          (c.forward_gdas f wm (argmaxRows wm), cs)) := by
  obtain ⟨ne, _, hconst, _⟩ := construct_ok_eq h
  refine ⟨?_, ?_, ?_⟩
  · rw [hconst]
    simp
  · intro w b
    cases w <;> cases b <;> simp
  · intro c hw idx f cs
    exact ⟨rfl, rfl, fun wm b => rfl⟩

/-- The opaque collaborators instantiated trivially over the unit feature
type, with a consistent Edge Index Map reported by every cell. -/
def env0 : Env Unit :=
  { stem := id
    mkRed := fun _ => id
    mkSearch := fun _ => ⟨fun f _ _ => f, fun f _ _ => (f, 0)⟩
    cellInfo := fun _ => (3, [((1, 0), 0), ((2, 0), 1), ((2, 1), 2)])
    lastact := id
    pool := id
    classifier := id
    nStem := 2
    nCell := fun _ => 1
    nLastact := 2
    nPool := 0
    nCls := 2
    archInit := [[RVal.fin 0, RVal.fin 0, RVal.fin 0]]
    expQ := fun _ => 1 }

/-- The network built by a successful concrete construction. -/
def net1 : TinyNetworkProxyless Unit :=
  match construct env0 8 1 3 10 ["none", "skip_connect", "nor_conv_3x3"]
      false true 32 with
  | Except.ok n => n
  | Except.error _ => net0

theorem construct_env0_ok :
    construct env0 8 1 3 10 ["none", "skip_connect", "nor_conv_3x3"]
      false true 32 = Except.ok net1 := rfl

/-- Witness for C7 at a concrete construction with `input_spatial_size = 32`. -/
theorem C7_witness : net1.const = true ↔ (32 : ℚ) ≠ 0 :=
  (C7_const_flag_and_branches env0 8 1 3 10
    ["none", "skip_connect", "nor_conv_3x3"] false true 32 net1
    construct_env0_ok).1

/-- C8 (confirmed): `get_weights` of a constructed network is disjoint (by
object identity, modelled as tagged parameter references) from the
single-element `get_alphas` list — the Architecture Parameter Matrix is
never among the network weights — while containing every parameter of the
stem, the cell stack, the final normalization, the pooling and the
classifier. -/
theorem C8_weights_exclude_alphas {F : Type} (env : Env F) (C N mn nc : ℕ)
    (ss : List String) (a t : Bool) (s : ℚ) (net : TinyNetworkProxyless F)
    (h : construct env C N mn nc ss a t s = Except.ok net) :
    (∀ p ∈ net.get_weights, ∀ q ∈ net.get_alphas, p ≠ q) ∧
    (∀ p ∈ net.stemParams, p ∈ net.get_weights) ∧
    (∀ p ∈ net.cellsParams, p ∈ net.get_weights) ∧
    (∀ p ∈ net.lastactParams, p ∈ net.get_weights) ∧
    (∀ p ∈ net.poolParams, p ∈ net.get_weights) ∧
    (∀ p ∈ net.clsParams, p ∈ net.get_weights) := by
  obtain ⟨ne, _, _, harch, hstem, hcells, hlast, hpool, hcls, _⟩ :=
    construct_ok_eq h
  refine ⟨?_, ?_, ?_, ?_, ?_, ?_⟩
  · intro p hp q hq
    unfold TinyNetworkProxyless.get_alphas at hq
    simp only [List.mem_singleton] at hq
    subst hq
    rw [harch]
    unfold TinyNetworkProxyless.get_weights at hp
    simp only [List.mem_append] at hp
    rcases hp with ((((hp | hp) | hp) | hp) | hp)
    · rw [hstem] at hp
      simp only [List.mem_map] at hp
      obtain ⟨i, _, rfl⟩ := hp
      simp
    · rw [hcells] at hp
      unfold cellsParamList at hp
      simp only [List.mem_flatMap, List.mem_map] at hp
      obtain ⟨e, _, i, _, rfl⟩ := hp
      simp
    · rw [hlast] at hp
      simp only [List.mem_map] at hp
      obtain ⟨i, _, rfl⟩ := hp
      simp
    · rw [hpool] at hp
      simp only [List.mem_map] at hp
      obtain ⟨i, _, rfl⟩ := hp
      simp
    · rw [hcls] at hp
      simp only [List.mem_map] at hp
      obtain ⟨i, _, rfl⟩ := hp
      simp
  · intro p hp
    unfold TinyNetworkProxyless.get_weights
    simp [hp]
  · intro p hp
    unfold TinyNetworkProxyless.get_weights
    simp [hp]
  · intro p hp
    unfold TinyNetworkProxyless.get_weights
    simp [hp]
  · intro p hp
    unfold TinyNetworkProxyless.get_weights
    simp [hp]
  · intro p hp
    unfold TinyNetworkProxyless.get_weights
    simp [hp]

/-- Witness for C8: concretely, the Architecture Parameter Matrix is not
among the weights of the concrete constructed network. -/
theorem C8_witness : PRef.archP ∉ net1.get_weights := by
  intro hmem
  exact (C8_weights_exclude_alphas env0 8 1 3 10
      ["none", "skip_connect", "nor_conv_3x3"] false true 32 net1
      construct_env0_ok).1
    PRef.archP hmem PRef.archP (by with_unfolding_all decide) rfl

/-- A successful lookup pins an actual entry of the association list. -/
theorem lookup_mem {l : List ((ℕ × ℕ) × ℕ)} {k : ℕ × ℕ} {v : ℕ}
    (h : l.lookup k = some v) : (k, v) ∈ l := by
  obtain ⟨l1, l2, rfl, _⟩ := List.lookup_eq_some_iff.mp h
  simp

theorem dictEq_symm {a b : EdgeMap} (h : dictEq a b = true) :
    dictEq b a = true := by
  unfold dictEq at *
  rw [Bool.and_eq_true] at h
  rw [Bool.and_eq_true]
  exact ⟨h.2, h.1⟩

theorem dictEq_trans {a b c : EdgeMap} (h1 : dictEq a b = true)
    (h2 : dictEq b c = true) : dictEq a c = true := by
  unfold dictEq at *
  rw [Bool.and_eq_true] at h1 h2
  obtain ⟨h1a, h1b⟩ := h1
  obtain ⟨h2a, h2b⟩ := h2
  simp only [List.all_eq_true] at h1a h1b h2a h2b
  rw [Bool.and_eq_true]
  constructor
  · rw [List.all_eq_true]
    intro kv hkv
    have hb := of_decide_eq_true (h1a kv hkv)
    exact h2a (kv.1, kv.2) (lookup_mem hb)
  · rw [List.all_eq_true]
    intro kv hkv
    have hb := of_decide_eq_true (h2b kv hkv)
    exact h1b (kv.1, kv.2) (lookup_mem hb)

/-- Agreement of two Searchable Cells' reported bookkeeping: equal edge
counts, and Edge Index Maps equal as dictionaries. -/
def ciEq (a b : ℕ × EdgeMap) : Prop :=
  a.1 = b.1 ∧ dictEq a.2 b.2 = true

instance (a b : ℕ × EdgeMap) : Decidable (ciEq a b) := by
  unfold ciEq; infer_instance

theorem ciEq_symm {a b : ℕ × EdgeMap} (h : ciEq a b) : ciEq b a :=
  ⟨h.1.symm, dictEq_symm h.2⟩

theorem ciEq_trans {a b c : ℕ × EdgeMap} (h1 : ciEq a b) (h2 : ciEq b c) :
    ciEq a c :=
  ⟨h1.1.trans h2.1, dictEq_trans h1.2 h2.2⟩

/-- The bookkeeping reported by the Searchable Cells of a planned stack, in
plan order (reduction layers carry none). -/
def searchInfos (l : List (Bool × (ℕ × EdgeMap))) : List (ℕ × EdgeMap) :=
  (l.filter (fun e => !e.1)).map (fun e => e.2)

theorem searchInfos_cons_red (ci : ℕ × EdgeMap)
    (l : List (Bool × (ℕ × EdgeMap))) :
    searchInfos ((true, ci) :: l) = searchInfos l := by
  simp [searchInfos]

theorem searchInfos_cons_search (ci : ℕ × EdgeMap)
    (l : List (Bool × (ℕ × EdgeMap))) :
    searchInfos ((false, ci) :: l) = ci :: searchInfos l := by
  simp [searchInfos]

theorem scan_cond_true {a ci : ℕ × EdgeMap} (h : ciEq a ci) :
    (decide (a.1 = ci.1) && dictEq a.2 ci.2) = true := by
  rw [Bool.and_eq_true, decide_eq_true_eq]
  exact h

theorem scan_cond_false {a ci : ℕ × EdgeMap} (h : ¬ ciEq a ci) :
    ¬ ((decide (a.1 = ci.1) && dictEq a.2 ci.2) = true) := by
  rw [Bool.and_eq_true, decide_eq_true_eq]
  exact h

/-- With the first cell's bookkeeping established, the scan succeeds
exactly when every later Searchable Cell agrees with it. -/
theorem scanCells_some_ok_iff : ∀ (l : List (Bool × (ℕ × EdgeMap)))
    (a : ℕ × EdgeMap),
    (∃ res, scanCells (some a) l = Except.ok res) ↔
      ∀ ci ∈ searchInfos l, ciEq a ci := by
  intro l
  induction l with
  | nil =>
    intro a
    simp [scanCells, searchInfos]
  | cons e l ih =>
    intro a
    obtain ⟨red, ci⟩ := e
    cases red with
    | true =>
      rw [searchInfos_cons_red]
      show (∃ res, scanCells (some a) l = Except.ok res) ↔ _
      exact ih a
    | false =>
      rw [searchInfos_cons_search]
      constructor
      · intro hres
        obtain ⟨res, hr⟩ := hres
        simp only [scanCells] at hr
        rw [if_neg (by simp)] at hr
        by_cases hciq : ciEq a ci
        · rw [if_pos (scan_cond_true hciq)] at hr
          intro x hx
          rcases List.mem_cons.mp hx with rfl | hx'
          · exact hciq
          · exact (ih a).mp ⟨res, hr⟩ x hx'
        · rw [if_neg (scan_cond_false hciq)] at hr
          simp at hr
      · intro hall
        have hciq : ciEq a ci := hall ci (by simp)
        have hrest := (ih a).mpr (fun x hx => hall x (by simp [hx]))
        obtain ⟨res, hr⟩ := hrest
        refine ⟨res, ?_⟩
        simp only [scanCells]
        rw [if_neg (by simp), if_pos (scan_cond_true hciq)]
        exact hr

/-- Any successful scan from an established state returns that state. -/
theorem scanCells_some_res : ∀ (l : List (Bool × (ℕ × EdgeMap)))
    (a : ℕ × EdgeMap) (res : Option (ℕ × EdgeMap)),
    scanCells (some a) l = Except.ok res → res = some a := by
  intro l
  induction l with
  | nil => intro a res h; simpa [scanCells] using h.symm
  | cons e l ih =>
    intro a res h
    obtain ⟨red, ci⟩ := e
    cases red with
    | true => exact ih a res h
    | false =>
      simp only [scanCells] at h
      rw [if_neg (by simp)] at h
      by_cases hciq : ciEq a ci
      · rw [if_pos (scan_cond_true hciq)] at h
        exact ih a res h
      · rw [if_neg (scan_cond_false hciq)] at h
        simp at h

/-- The scan from the initial (no cell yet) state succeeds with an
established bookkeeping exactly when there is a first Searchable Cell and
every later one agrees with it. -/
theorem scanCells_none_ok_iff : ∀ (l : List (Bool × (ℕ × EdgeMap))),
    (∃ a, scanCells none l = Except.ok (some a)) ↔
      ∃ a rest, searchInfos l = a :: rest ∧ ∀ ci ∈ rest, ciEq a ci := by
  intro l
  induction l with
  | nil => simp [scanCells, searchInfos]
  | cons e l ih =>
    obtain ⟨red, ci⟩ := e
    cases red with
    | true =>
      rw [searchInfos_cons_red]
      show (∃ a, scanCells none l = Except.ok (some a)) ↔ _
      exact ih
    | false =>
      rw [searchInfos_cons_search]
      constructor
      · intro hex
        obtain ⟨a, ha⟩ := hex
        have ha' : scanCells (some ci) l = Except.ok (some a) := ha
        have hres := scanCells_some_res l ci (some a) ha'
        refine ⟨ci, searchInfos l, rfl, ?_⟩
        exact (scanCells_some_ok_iff l ci).mp ⟨some a, ha'⟩
      · intro hex
        obtain ⟨a, rest, heq, hall⟩ := hex
        injection heq with h1 h2
        subst h1
        rw [← h2] at hall
        obtain ⟨res, hres⟩ := (scanCells_some_ok_iff l ci).mpr hall
        have hr2 := scanCells_some_res l ci res hres
        subst hr2
        exact ⟨ci, hres⟩

/-- Mutual agreement with a common head gives pairwise agreement. -/
theorem pairwise_of_head_agree {a : ℕ × EdgeMap} :
    ∀ {rest : List (ℕ × EdgeMap)}, (∀ ci ∈ rest, ciEq a ci) →
      List.Pairwise ciEq (a :: rest) := by
  intro rest
  induction rest with
  | nil => intro _; simp [List.pairwise_cons]
  | cons b bs ih =>
    intro hall
    rw [List.pairwise_cons]
    refine ⟨fun x hx => hall x hx, ?_⟩
    rw [List.pairwise_cons]
    constructor
    · intro z hz
      exact ciEq_trans (ciEq_symm (hall b (by simp))) (hall z (by simp [hz]))
    · have hp := ih (fun x hx => hall x (by simp [hx]))
      exact (List.pairwise_cons.mp hp).2

/-- C9 (confirmed): construction succeeds exactly when there is at least
one Searchable Cell and all Searchable Cells pairwise agree on the edge
count and the Edge Index Map; any disagreement with the first cell's
bookkeeping makes the construction-time assertion abort, and the network
object is never produced. -/
theorem C9_construction_invariant {F : Type} (env : Env F) (C N mn nc : ℕ)
    (ss : List String) (a t : Bool) (s : ℚ) :
    (∃ net, construct env C N mn nc ss a t s = Except.ok net) ↔
      (searchInfos ((layerPlan C N s).enum.map
          (fun e => (e.2.2.1, env.cellInfo e.1))) ≠ [] ∧
        List.Pairwise ciEq (searchInfos ((layerPlan C N s).enum.map
          (fun e => (e.2.2.1, env.cellInfo e.1))))) := by
  constructor
  · intro hex
    obtain ⟨net, hnet⟩ := hex
    obtain ⟨ne, hscan, _⟩ := construct_ok_eq hnet
    have hex2 : ∃ a2, scanCells none ((layerPlan C N s).enum.map
        (fun e => (e.2.2.1, env.cellInfo e.1))) = Except.ok (some a2) :=
      ⟨ne, hscan⟩
    obtain ⟨a2, rest, heq, hall⟩ := (scanCells_none_ok_iff _).mp hex2
    rw [heq]
    exact ⟨by simp, pairwise_of_head_agree hall⟩
  · intro hcon
    obtain ⟨hne, hpw⟩ := hcon
    cases hsi : searchInfos ((layerPlan C N s).enum.map
        (fun e => (e.2.2.1, env.cellInfo e.1))) with
    | nil => exact absurd hsi hne
    | cons a2 rest =>
      rw [hsi] at hpw
      have hall := (List.pairwise_cons.mp hpw).1
      obtain ⟨a3, hscan⟩ := (scanCells_none_ok_iff _).mpr ⟨a2, rest, hsi, hall⟩
      cases hc : construct env C N mn nc ss a t s with
      | ok net => exact ⟨net, rfl⟩
      | error e =>
        simp only [construct] at hc
        rw [hscan] at hc
        simp at hc

/-- Witness for C9: the concrete construction with agreeing cells
succeeds. -/
theorem C9_witness :
    ∃ net, construct env0 8 1 3 10 ["none", "skip_connect", "nor_conv_3x3"]
      false true 32 = Except.ok net :=
  (C9_construction_invariant env0 8 1 3 10
      ["none", "skip_connect", "nor_conv_3x3"] false true 32).mpr
    (by with_unfolding_all decide)
